import Mathlib

/-!
Verification development for the DiningBot specials-extraction engine.

The Python sources embedded here are:
- `diningbot/helpers/repeats.py` : the normalizer `norm` and the static rule
  tables (per-station repeat sets, per-concept signature sets);
- `diningbot/extraction.py` : station-type dispatch (`TYPE2`/`TYPE3`),
  the hybrid repeat filter, the morph classifier, and `extract_specials`;
- `diningbot/menu_service.py` : a second copy of the hybrid repeat filter.

Python strings are modelled as `String` (lists of characters); nullable
strings as `Option String`.  Python's `dict` of periods is modelled as an
association list whose values are `Option Period` (the code guards
`if not period: continue`, so absent/None values are representable).
A Python exception escaping a function is modelled by `Option`-valued
results: `none` means the call raises.
-/

namespace DiningBot

/-- MenuItem from `fetch_helper.py`: `name` (nullable text) and optional
`description`. -/
structure MenuItem where
  name : Option String
  description : Option String
deriving DecidableEq, Repr

/-- Category ("station") from `fetch_helper.py`: nullable `id`, display
`name`, ordered item list. -/
structure Category where
  id : Option String
  name : Option String
  items : List MenuItem
deriving DecidableEq, Repr

/-- Period ("meal") from `fetch_helper.py`. -/
structure Period where
  id : Option String
  name : Option String
  sort_order : Int
  categories : List Category
deriving DecidableEq, Repr

/-! ## The normalizer (`helpers/repeats.py`, `norm`)

Python: `" ".join((text or "").strip().lower().split())`.
`pyStrip` models `str.strip()`, `pyWords` models `str.split()` (split on
whitespace runs, no empty words), `joinWords` models `" ".join(...)`. -/

/-- Python `str.strip()` on a character list: drop leading and trailing
whitespace. -/
def pyStrip (l : List Char) : List Char :=
  ((l.dropWhile Char.isWhitespace).reverse.dropWhile Char.isWhitespace).reverse

/-- Python `str.split()` with no separator argument: the maximal
whitespace-free runs of the string, in order. -/
def pyWords : List Char → List (List Char)
  | [] => []
  | [c] => if c.isWhitespace then [] else [[c]]
  | c :: d :: cs =>
    if c.isWhitespace then pyWords (d :: cs)
    else if d.isWhitespace then [c] :: pyWords (d :: cs)
    else
      match pyWords (d :: cs) with
      | [] => [[c]]
      | w :: ws => (c :: w) :: ws

/-- Python `" ".join(words)`. -/
def joinWords : List (List Char) → List Char
  | [] => []
  | [w] => w
  | w :: ws => w ++ ' ' :: joinWords ws

/-- Python `str.lower()` (ASCII, as Lean's `Char.toLower`). -/
def pyLower (s : String) : String :=
  ⟨s.data.map Char.toLower⟩

/-- The normalizer `norm` from `helpers/repeats.py`:
`" ".join((text or "").strip().lower().split())`.  `none` models a Python
`None` argument (falsy, hence replaced by `""`). -/
def norm (text : Option String) : String :=
  ⟨joinWords (pyWords (((pyStrip (text.getD "").data).map Char.toLower)))⟩

/-! ## Static rule tables (`helpers/repeats.py`)

Python builds each table as a set of `norm(...)` values; sets are modelled
as lists, used only through membership. -/

/-- Repeat table for the "Rise and Dine" station (`helpers/repeats.py`). -/
def RISE_AND_DINE : List String :=
  [norm (some "Fresh Cooked Eggs"),
   norm (some "Scrambled Eggs"),
   norm (some "Blueberry Danish"),
   norm (some "Chocolate Chip Buttermilk Muffins"),
   norm (some "Scones"),
   norm (some "Plant Based Sausage Patty"),
   norm (some "Tea Biscuits"),
   norm (some "Oatmeal"),
   norm (some "Congee"),
   norm (some "Maple Syrup")]

/-- Repeat table for "The Stacks" (`helpers/repeats.py`). -/
def STACKS : List String :=
  [norm (some "Side of Sliced Tomato"),
   norm (some "Leaf Lettuce"),
   norm (some "Sliced Red Onions"),
   norm (some "Sliced Fresh Cucumbers"),
   norm (some "Smoked Deli Ham"),
   norm (some "Deli Roast Beef"),
   norm (some "Sliced Deli Turkey"),
   norm (some "Egg Salad Filling no Onion"),
   norm (some "Tuna Salad Filling"),
   norm (some "Light Type Mayonnaise"),
   norm (some "Mustard"),
   norm (some "Chipotle Aioli"),
   norm (some "Hummus"),
   norm (some "Chao Cheese"),
   norm (some "Mozzarella Cheese Slices"),
   norm (some "Cheddar Cheese Slices, Mild"),
   norm (some "Sliced White Bread"),
   norm (some "Homemade Whole Wheat Bread"),
   norm (some "Flour Tortilla Wrap, 10\""),
   norm (some "Sourdough Bread, Pre-Sliced")]

/-- Repeat table for "Leaf Market" (`helpers/repeats.py`). -/
def LEAF_MARKET : List String :=
  [norm (some "Deluxe Fruit Salad"),
   norm (some "Chopped Romaine"),
   norm (some "Diced Tomatoes"),
   norm (some "Sliced Fresh Cucumbers"),
   norm (some "Baby Carrots"),
   norm (some "Diced Fresh Celery"),
   norm (some "Chopped Broccoli"),
   norm (some "Fresh Chopped Cauliflower"),
   norm (some "Sliced Beets"),
   norm (some "Chopped Hard Cooked Egg"),
   norm (some "1% Cottage Cheese"),
   norm (some "Sliced Red Onions"),
   norm (some "Black Beans"),
   norm (some "Seasoned Croutons"),
   norm (some "Sliced Black Olives"),
   norm (some "Baby Spinach"),
   norm (some "Salted Sunflower Seeds"),
   norm (some "Chickpeas"),
   norm (some "Spring Mix Lettuce"),
   norm (some "Caesar Salad Dressing"),
   norm (some "CW Ranch Salad Dressing"),
   norm (some "Balsamic Salad Dressing")]

/-- Repeat table for "Grill House" (`helpers/repeats.py`). -/
def GRILL_HOUSE : List String :=
  [norm (some "Leaf Lettuce"),
   norm (some "Side of Sliced Tomato"),
   norm (some "Cucumber Pickles"),
   norm (some "Shaved Fresh Red Onions"),
   norm (some "BBQ Sauce"),
   norm (some "Sriracha Mayonnaise"),
   norm (some "Pesto Aioli"),
   norm (some "Signature Burger Sauce"),
   norm (some "Kimchi-Style Coleslaw")]

/-- Signature set for the teppanyaki concept (`helpers/repeats.py`). -/
def TEPPAN_SIGNATURE : List String :=
  [norm (some "jasmine rice"), norm (some "cantonese style chow mein noodles")]

/-- Signature set for the french-toast concept (`helpers/repeats.py`). -/
def FRENCH_TOAST_SIGNATURE : List String :=
  [norm (some "french toast")]

/-- Signature set for the pancake concept (`helpers/repeats.py`). -/
def PANCAKE_SIGNATURE : List String :=
  [norm (some "pancakes"), norm (some "pancake")]

/-- Signature set for the rice-bowl concept (`helpers/repeats.py`). -/
def RICE_BOWL_SIGNATURE : List String :=
  [norm (some "bbq chicken"), norm (some "chili con carne")]

/-- Signature set for the mezze concept (`helpers/repeats.py`). -/
def MEZZE_BAR_SIGNATURE : List String :=
  [norm (some "tzatziki"), norm (some "hummus")]

/-- Signature set for the ramen concept (`helpers/repeats.py`). -/
def RAMEN_BAR_SIGNATURE : List String :=
  [norm (some "ramen noodles"), norm (some "udon noodles")]

/-- Signature set for the curry concept (`helpers/repeats.py`). -/
def CURRY_BAR_SIGNATURE : List String :=
  [norm (some "rice pilaf"), norm (some "green curry base"),
   norm (some "indonesian beef curry"), norm (some "rajma curry")]

/-- Signature set for the pasta concept (`helpers/repeats.py`). -/
def PASTA_BAR_SIGNATURE : List String :=
  [norm (some "garlic cream cheese sauce"), norm (some "sun-dried tomato sauce")]

example : norm (some "  Fresh   Cooked EGGS ") = "fresh cooked eggs" := by decide
example : norm none = "" := by decide

/-! ## Configuration of `extraction.py`

`extraction.py` imports `norm` and all its rule tables from the module
`diningbot/repeated_values.py`, which is not under `src/` (only the import
statement is).  The handlers below are therefore parameterized over the
table contents. -/

/-- Modelled from the spec: the per-station repeat tables that
`extraction.py` imports from the missing module `diningbot/repeated_values.py`.
Each field plays the role of the module-level constant of the same name. -/
structure RepeatTables where
  RISE_AND_DINE : List String
  STACKS : List String
  LEAF_MARKET : List String
  GRILL_HOUSE : List String
deriving DecidableEq, Repr

/-- Modelled from the spec: the per-concept signature sets that
`extraction.py` imports from the missing module
`diningbot/repeated_values.py` (including `SHAWARMA_SIGNATURE`, which has
no counterpart in `helpers/repeats.py`). -/
structure Signatures where
  TEPPAN_SIGNATURE : List String
  SHAWARMA_SIGNATURE : List String
  FRENCH_TOAST_SIGNATURE : List String
  PANCAKE_SIGNATURE : List String
  RICE_BOWL_SIGNATURE : List String
  MEZZE_BAR_SIGNATURE : List String
  RAMEN_BAR_SIGNATURE : List String
  CURRY_BAR_SIGNATURE : List String
  PASTA_BAR_SIGNATURE : List String
deriving DecidableEq, Repr

/-- Modelled from the spec: `diningbot/repeated_values.py` is not under
`src/`; per the spec (§9) the divergent source copies differ only in
signature tiers and labels, so its repeat tables are taken to equal those
of `diningbot/helpers/repeats.py`. -/
def repeatsTables : RepeatTables :=
  ⟨RISE_AND_DINE, STACKS, LEAF_MARKET, GRILL_HOUSE⟩

/-- Modelled from the spec: a concrete `Signatures` value for instantiating
theorems.  All sets except `SHAWARMA_SIGNATURE` are taken from
`diningbot/helpers/repeats.py`; the contents of `SHAWARMA_SIGNATURE` are
recorded nowhere under `src/`, so the empty set stands in.  Every theorem
below that is about the shawarma tier quantifies over the whole
`Signatures` structure, so nothing depends on this placeholder. -/
def repeatsSignatures : Signatures :=
  ⟨TEPPAN_SIGNATURE, [], FRENCH_TOAST_SIGNATURE, PANCAKE_SIGNATURE,
   RICE_BOWL_SIGNATURE, MEZZE_BAR_SIGNATURE, RAMEN_BAR_SIGNATURE,
   CURRY_BAR_SIGNATURE, PASTA_BAR_SIGNATURE⟩

/-! ## `extraction.py` -/

/-- TYPE1 handler from `extraction.py`: always-unique stations pass through
unchanged. -/
def handle_type1_unique (cat : Category) : Category :=
  cat

/-- The `for item in cat.items` loop of `_handle_type2_hybrid` in
`extraction.py`: `seen` is the set of normalized names seen so far
(a list, used only through membership). -/
def hybridLoop (T : RepeatTables) (cname : String) :
    List MenuItem → List String → List MenuItem
  | [], _ => []
  | item :: rest, seen =>
    let n := norm item.name
    if n ∈ seen then hybridLoop T cname rest seen
    else if cname = "rise and dine" ∧ n ∈ T.RISE_AND_DINE then
      hybridLoop T cname rest (n :: seen)
    else if cname = "the stacks" ∧ n ∈ T.STACKS then
      hybridLoop T cname rest (n :: seen)
    else if cname = "leaf market" ∧ n ∈ T.LEAF_MARKET then
      hybridLoop T cname rest (n :: seen)
    else if cname = "grill house" ∧ n ∈ T.GRILL_HOUSE then
      hybridLoop T cname rest (n :: seen)
    else item :: hybridLoop T cname rest (n :: seen)

/-- `_handle_type2_hybrid` from `extraction.py` (lines 27-56): filter
repetitive items; if no specials remain, return `None`. -/
def handle_type2_hybrid (T : RepeatTables) (cat : Category) : Option Category :=
  let cname := norm cat.name
  let filtered_items := hybridLoop T cname cat.items []
  if filtered_items = [] then none
  else some ⟨cat.id, cat.name, filtered_items⟩

/-- `_handle_type3_morph` from `extraction.py` (lines 58-92): detect which
bar concept a morph station embodies today; the returned category carries
the detected label as its `name` and no items. -/
def handle_type3_morph (S : Signatures) (cat : Category) : Category :=
  let names := cat.items.map (fun i => norm i.name)
  let station : Option String :=
    if S.TEPPAN_SIGNATURE.any (fun sig => decide (sig ∈ names.take 3)) then
      some "Teppenyaki Station"
    else if S.SHAWARMA_SIGNATURE.any (fun sig => decide (sig ∈ names.take 3)) then
      some "Shawarma Station"
    else if S.FRENCH_TOAST_SIGNATURE.any (fun sig => decide (sig ∈ names.take 3)) then
      some "French Toast Bar"
    else if S.PANCAKE_SIGNATURE.any (fun sig => decide (sig ∈ names.take 3)) then
      some "Pancakes Bar"
    else if S.RICE_BOWL_SIGNATURE.any (fun sig => decide (sig ∈ names.take 3)) then
      some "Rice Bowl Bar"
    else if S.MEZZE_BAR_SIGNATURE.any (fun sig => decide (sig ∈ names.take 3)) then
      some "Mezze Bar"
    else if S.RAMEN_BAR_SIGNATURE.any (fun sig => decide (sig ∈ names.take 3)) then
      some "Ramen Station"
    else if S.CURRY_BAR_SIGNATURE.any (fun sig => decide (sig ∈ names.take 3)) then
      some "Curry Station"
    else if S.PASTA_BAR_SIGNATURE.any (fun sig => decide (sig ∈ names)) then
      some "Pasta Station"
    else cat.name
  ⟨cat.id, station, []⟩

/-- Morph-station names from `extract_specials` in `extraction.py`. -/
def TYPE3 : List String :=
  ["the hot plate (teppanyaki)", "the hot plate", "fresh bowl", "create"]

/-- Hybrid-station names from `extract_specials` in `extraction.py`. -/
def TYPE2 : List String :=
  ["rise and dine", "the stacks", "leaf market", "grill house"]

/-- The category appended to `type3_list` by `extract_specials` in
`extraction.py`: original `id` and `name`, and one bullet item carrying the
classification detected by `_handle_type3_morph` with `None` description. -/
def morphBullet (S : Signatures) (cat : Category) : Category :=
  ⟨cat.id, cat.name, [⟨(handle_type3_morph S cat).name, none⟩]⟩

/-- The morph branch of `extract_specials` in `extraction.py`
(lines 119-132).  The branch evaluates `cat.items[0].__class__`, which
raises `IndexError` when the category has no items: that raise is modelled
by `none`. -/
def morphPath (S : Signatures) (cat : Category) : Option Category :=
  match cat.items with
  | [] => none
  | _ :: _ => some (morphBullet S cat)

/-- The `for cat in period.categories` loop of `extract_specials` in
`extraction.py`: builds the pair `(type1_and_type2, type3_list)`; `none`
models an `IndexError` escaping the loop. -/
def processCategories (S : Signatures) (T : RepeatTables) :
    List Category → Option (List Category × List Category)
  | [] => some ([], [])
  | cat :: rest =>
    let cname_norm := norm cat.name
    if cname_norm ∈ TYPE3 then
      match morphPath S cat with
      | none => none
      | some b => (processCategories S T rest).map (fun p => (p.1, b :: p.2))
    else if cname_norm ∈ TYPE2 then
      match handle_type2_hybrid T cat with
      | some new_cat =>
        (processCategories S T rest).map (fun p => (new_cat :: p.1, p.2))
      | none => processCategories S T rest
    else
      (processCategories S T rest).map
        (fun p => (handle_type1_unique cat :: p.1, p.2))

/-- The per-period body of `extract_specials` in `extraction.py`: merge
`type1_and_type2 ++ type3_list`, apply the breakfast-only filter, and emit
a new `Period` with the same `id`, `name` and `sort_order`. -/
def processPeriod (S : Signatures) (T : RepeatTables)
    (period_key : String) (period : Period) : Option Period :=
  match processCategories S T period.categories with
  | none => none
  | some (t12, t3) =>
    let new_cats := t12 ++ t3
    let new_cats2 :=
      if pyLower period_key = "breakfast" then
        new_cats.filter (fun c => norm c.name == "rise and dine")
      else new_cats
    some ⟨period.id, period.name, period.sort_order, new_cats2⟩

/-- `extract_specials` from `extraction.py` (lines 95-158) over the
snapshot, modelled as an association list from meal key to
`Option Period` (`if not period: continue` skips falsy entries).  `none`
models an uncaught `IndexError`. -/
def extract_specials (S : Signatures) (T : RepeatTables) :
    List (String × Option Period) → Option (List (String × Period))
  | [] => some []
  | (_, none) :: rest => extract_specials S T rest
  | (key, some period) :: rest =>
    match processPeriod S T key period with
    | none => none
    | some p => (extract_specials S T rest).map (fun out => (key, p) :: out)

/-! ## `menu_service.py` -/

/-- The `for item in cat.items` loop of `_handle_type2_hybrid` in
`menu_service.py`, which reads its tables directly from
`diningbot/helpers/repeats.py`. -/
def menuService_hybridLoop (cname : String) :
    List MenuItem → List String → List MenuItem
  | [], _ => []
  | item :: rest, seen =>
    let n := norm item.name
    if n ∈ seen then menuService_hybridLoop cname rest seen
    else if cname = "rise and dine" ∧ n ∈ RISE_AND_DINE then
      menuService_hybridLoop cname rest (n :: seen)
    else if cname = "the stacks" ∧ n ∈ STACKS then
      menuService_hybridLoop cname rest (n :: seen)
    else if cname = "leaf market" ∧ n ∈ LEAF_MARKET then
      menuService_hybridLoop cname rest (n :: seen)
    else if cname = "grill house" ∧ n ∈ GRILL_HOUSE then
      menuService_hybridLoop cname rest (n :: seen)
    else item :: menuService_hybridLoop cname rest (n :: seen)

/-- `_handle_type2_hybrid` from `menu_service.py` (lines 99-128). -/
def menuService_handle_type2_hybrid (cat : Category) : Option Category :=
  let cname := norm cat.name
  let filtered_items := menuService_hybridLoop cname cat.items []
  if filtered_items = [] then none
  else some ⟨cat.id, cat.name, filtered_items⟩

example :
    handle_type2_hybrid repeatsTables
      ⟨some "c1", some "The Stacks",
       [⟨some "Ham", none⟩, ⟨some "Mustard", none⟩, ⟨some "Spicy Mayo", none⟩]⟩ =
    some ⟨some "c1", some "The Stacks",
      [⟨some "Ham", none⟩, ⟨some "Spicy Mayo", none⟩]⟩ := by decide

example :
    handle_type2_hybrid repeatsTables
      ⟨none, some "The Stacks", [⟨some "MUSTARD ", none⟩, ⟨some "Hummus", none⟩]⟩ =
    none := by decide

example :
    (handle_type3_morph repeatsSignatures
      ⟨none, some "Create",
       [⟨some "Ramen Noodles", none⟩, ⟨some "Scallions", none⟩, ⟨some "Egg", none⟩]⟩).name =
    some "Ramen Station" := by decide

example :
    extract_specials repeatsSignatures repeatsTables
      [("lunch", some ⟨none, some "Lunch", 1,
        [⟨none, some "Create", []⟩]⟩)] = none := by decide

/-! ## Facts about the normalizer -/

theorem toNat_ofNat_valid {n : Nat} (h : n.isValidChar) :
    (Char.ofNat n).toNat = n := by
  simp [Char.ofNat, dif_pos h, Char.ofNatAux, Char.toNat, UInt32.toNat,
    BitVec.toNat_ofNatLt]

theorem toLower_eq_self {c : Char} (h : ¬(c.toNat ≥ 65 ∧ c.toNat ≤ 90)) :
    c.toLower = c := by
  unfold Char.toLower
  rw [if_neg h]

theorem toLower_toLower (c : Char) : c.toLower.toLower = c.toLower := by
  by_cases h : c.toNat ≥ 65 ∧ c.toNat ≤ 90
  · have h1 : c.toLower = Char.ofNat (c.toNat + 32) := by
      unfold Char.toLower
      rw [if_pos h]
    have h2 : c.toLower.toNat = c.toNat + 32 := by
      rw [h1]
      exact toNat_ofNat_valid (Or.inl (by omega))
    exact toLower_eq_self (by omega)
  · have h1 : c.toLower = c := toLower_eq_self h
    rw [h1]
    exact h1

theorem pyWords_nil : pyWords [] = [] := rfl

theorem pyWords_one (c : Char) :
    pyWords [c] = if c.isWhitespace then [] else [[c]] := rfl

theorem pyWords_cons_cons (c d : Char) (cs : List Char) :
    pyWords (c :: d :: cs) =
      if c.isWhitespace then pyWords (d :: cs)
      else if d.isWhitespace then [c] :: pyWords (d :: cs)
      else
        match pyWords (d :: cs) with
        | [] => [[c]]
        | w :: ws => (c :: w) :: ws := rfl

theorem pyWords_ws_cons {c : Char} (h : c.isWhitespace) (l : List Char) :
    pyWords (c :: l) = pyWords l := by
  cases l with
  | nil => simp [pyWords_one, pyWords_nil, h]
  | cons d cs => simp [pyWords_cons_cons, h]

theorem pyWords_all_ws {t : List Char} (h : ∀ c ∈ t, c.isWhitespace = true) :
    pyWords t = [] := by
  induction t with
  | nil => rfl
  | cons c cs ih =>
    rw [pyWords_ws_cons (h c (by simp))]
    exact ih (fun d hd => h d (by simp [hd]))

theorem pyWords_sound : ∀ (l : List Char), ∀ w ∈ pyWords l,
    w ≠ [] ∧ ∀ c ∈ w, c.isWhitespace = false := by
  intro l
  induction l with
  | nil => intro w hw; simp [pyWords_nil] at hw
  | cons c cs ih =>
    intro w hw
    cases cs with
    | nil =>
      by_cases hc : c.isWhitespace
      · simp [pyWords_one, hc] at hw
      · simp [pyWords_one, hc] at hw
        subst hw
        refine ⟨by simp, ?_⟩
        intro x hx
        simp at hx
        subst hx
        simpa using hc
    | cons d cs' =>
      by_cases hc : c.isWhitespace
      · rw [pyWords_ws_cons hc] at hw
        exact ih w hw
      · by_cases hd : d.isWhitespace
        · rw [pyWords_cons_cons] at hw
          simp only [if_neg hc, if_pos hd] at hw
          rcases List.mem_cons.mp hw with h1 | h2
          · subst h1
            refine ⟨by simp, ?_⟩
            intro x hx
            simp at hx
            subst hx
            simpa using hc
          · exact ih w h2
        · rw [pyWords_cons_cons] at hw
          simp only [if_neg hc, if_neg hd] at hw
          rcases heq : pyWords (d :: cs') with _ | ⟨w0, ws0⟩
          · rw [heq] at hw
            simp at hw
            subst hw
            refine ⟨by simp, ?_⟩
            intro x hx
            simp at hx
            subst hx
            simpa using hc
          · rw [heq] at hw
            rcases List.mem_cons.mp hw with h1 | h2
            · subst h1
              have hw0 := ih w0 (heq ▸ List.mem_cons_self w0 ws0)
              refine ⟨by simp, ?_⟩
              intro x hx
              rcases List.mem_cons.mp hx with h3 | h4
              · subst h3
                simpa using hc
              · exact hw0.2 x h4
            · exact ih w (heq ▸ List.mem_cons.mpr (Or.inr h2))

theorem pyWords_subset : ∀ (l : List Char), ∀ w ∈ pyWords l, ∀ c ∈ w, c ∈ l := by
  intro l
  induction l with
  | nil => intro w hw; simp [pyWords_nil] at hw
  | cons c cs ih =>
    intro w hw x hx
    cases cs with
    | nil =>
      by_cases hc : c.isWhitespace
      · simp [pyWords_one, hc] at hw
      · simp [pyWords_one, hc] at hw
        subst hw
        simpa using hx
    | cons d cs' =>
      by_cases hc : c.isWhitespace
      · rw [pyWords_ws_cons hc] at hw
        exact List.mem_cons.mpr (Or.inr (ih w hw x hx))
      · by_cases hd : d.isWhitespace
        · rw [pyWords_cons_cons] at hw
          simp only [if_neg hc, if_pos hd] at hw
          rcases List.mem_cons.mp hw with h1 | h2
          · subst h1
            simp at hx
            simp [hx]
          · exact List.mem_cons.mpr (Or.inr (ih w h2 x hx))
        · rw [pyWords_cons_cons] at hw
          simp only [if_neg hc, if_neg hd] at hw
          rcases heq : pyWords (d :: cs') with _ | ⟨w0, ws0⟩
          · rw [heq] at hw
            simp at hw
            subst hw
            simp at hx
            simp [hx]
          · rw [heq] at hw
            rcases List.mem_cons.mp hw with h1 | h2
            · subst h1
              rcases List.mem_cons.mp hx with h3 | h4
              · simp [h3]
              · have := ih w0 (heq ▸ List.mem_cons_self w0 ws0) x h4
                exact List.mem_cons.mpr (Or.inr this)
            · have := ih w (heq ▸ List.mem_cons.mpr (Or.inr h2)) x hx
              exact List.mem_cons.mpr (Or.inr this)

theorem pyWords_append_ws : ∀ (l t : List Char),
    (∀ c ∈ t, c.isWhitespace = true) → pyWords (l ++ t) = pyWords l := by
  intro l t
  induction l with
  | nil =>
    intro h
    simpa [pyWords_nil] using pyWords_all_ws h
  | cons c cs ih =>
    intro h
    cases cs with
    | nil =>
      by_cases hc : c.isWhitespace
      · rw [show ([c] ++ t : List Char) = c :: t from rfl, pyWords_ws_cons hc,
          pyWords_all_ws h, pyWords_one]
        simp [hc]
      · cases t with
        | nil => rfl
        | cons e t' =>
          have he : e.isWhitespace = true := h e (by simp)
          rw [show ([c] ++ e :: t' : List Char) = c :: e :: t' from rfl,
            pyWords_cons_cons]
          simp only [if_neg hc, if_pos he]
          rw [pyWords_ws_cons he, pyWords_all_ws (fun d hd => h d (by simp [hd]))]
          simp [pyWords_one, hc]
    | cons d cs' =>
      have ihh := ih h
      rw [show ((c :: d :: cs') ++ t : List Char) = c :: d :: (cs' ++ t) from rfl,
        pyWords_cons_cons, pyWords_cons_cons]
      rw [show (d :: (cs' ++ t) : List Char) = (d :: cs') ++ t from rfl, ihh]

theorem pyWords_dropWhile_ws : ∀ (l : List Char),
    pyWords (l.dropWhile Char.isWhitespace) = pyWords l := by
  intro l
  induction l with
  | nil => rfl
  | cons c cs ih =>
    by_cases hc : c.isWhitespace
    · rw [List.dropWhile_cons_of_pos hc, ih, pyWords_ws_cons hc]
    · rw [List.dropWhile_cons_of_neg (by simpa using hc)]

theorem pyWords_pyStrip (l : List Char) : pyWords (pyStrip l) = pyWords l := by
  unfold pyStrip
  set m := l.dropWhile Char.isWhitespace with hm
  have h1 : pyWords m = pyWords l := pyWords_dropWhile_ws l
  have hdecomp :
      (m.reverse.dropWhile Char.isWhitespace).reverse ++
        (m.reverse.takeWhile Char.isWhitespace).reverse = m := by
    calc (m.reverse.dropWhile Char.isWhitespace).reverse ++
          (m.reverse.takeWhile Char.isWhitespace).reverse
        = (m.reverse.takeWhile Char.isWhitespace ++
            m.reverse.dropWhile Char.isWhitespace).reverse :=
          (List.reverse_append _ _).symm
      _ = m.reverse.reverse := by rw [List.takeWhile_append_dropWhile]
      _ = m := List.reverse_reverse m
  have hws : ∀ c ∈ (m.reverse.takeWhile Char.isWhitespace).reverse,
      c.isWhitespace = true := by
    intro c hc
    rw [List.mem_reverse] at hc
    have hall := List.all_takeWhile (p := Char.isWhitespace) (l := m.reverse)
    exact List.all_eq_true.mp hall c hc
  have h2 : pyWords ((m.reverse.dropWhile Char.isWhitespace).reverse) = pyWords m := by
    conv_rhs => rw [← hdecomp]
    rw [pyWords_append_ws _ _ hws]
  rw [h2, h1]

theorem pyWords_single : ∀ (w : List Char), w ≠ [] →
    (∀ c ∈ w, c.isWhitespace = false) → pyWords w = [w] := by
  intro w
  induction w with
  | nil => intro h; exact absurd rfl h
  | cons c cs ih =>
    intro _ hall
    have hc : c.isWhitespace = false := hall c (by simp)
    cases cs with
    | nil => simp [pyWords_one, hc]
    | cons d cs' =>
      have hd : d.isWhitespace = false := hall d (by simp)
      rw [pyWords_cons_cons, ih (by simp) (fun x hx => hall x (by simp [hx]))]
      simp [hc, hd]

theorem pyWords_word_append : ∀ (w : List Char), ∀ (J : List Char), w ≠ [] →
    (∀ c ∈ w, c.isWhitespace = false) →
    pyWords (w ++ ' ' :: J) = w :: pyWords J := by
  intro w
  induction w with
  | nil => intro J h; exact absurd rfl h
  | cons c cs ih =>
    intro J _ hall
    have hc : c.isWhitespace = false := hall c (by simp)
    cases cs with
    | nil =>
      rw [show ([c] ++ ' ' :: J : List Char) = c :: ' ' :: J from rfl,
        pyWords_cons_cons, pyWords_ws_cons (by decide)]
      simp [hc]
    | cons d cs' =>
      have hd : d.isWhitespace = false := hall d (by simp)
      have key := ih J (by simp) (fun x hx => hall x (by simp [hx]))
      have key2 : pyWords (d :: (cs' ++ ' ' :: J)) = (d :: cs') :: pyWords J := key
      rw [show ((c :: d :: cs') ++ ' ' :: J : List Char) =
        c :: d :: (cs' ++ ' ' :: J) from rfl, pyWords_cons_cons, key2]
      simp [hc, hd]

theorem pyWords_joinWords : ∀ (ws : List (List Char)),
    (∀ w ∈ ws, w ≠ [] ∧ ∀ c ∈ w, c.isWhitespace = false) →
    pyWords (joinWords ws) = ws := by
  intro ws
  induction ws with
  | nil => intro _; rfl
  | cons w ws' ih =>
    intro h
    cases ws' with
    | nil =>
      have hw := h w (by simp)
      exact pyWords_single w hw.1 hw.2
    | cons w2 ws'' =>
      rw [show joinWords (w :: w2 :: ws'') = w ++ ' ' :: joinWords (w2 :: ws'')
        from rfl]
      have hw := h w (by simp)
      rw [pyWords_word_append w _ hw.1 hw.2,
        ih (fun x hx => h x (by simp [hx]))]

theorem mem_joinWords : ∀ (ws : List (List Char)) (c : Char),
    c ∈ joinWords ws → (∃ w ∈ ws, c ∈ w) ∨ c = ' ' := by
  intro ws
  induction ws with
  | nil => intro c hc; simp [joinWords] at hc
  | cons w ws' ih =>
    intro c hc
    cases ws' with
    | nil => exact Or.inl ⟨w, by simp, hc⟩
    | cons w2 ws'' =>
      rw [show joinWords (w :: w2 :: ws'') = w ++ ' ' :: joinWords (w2 :: ws'')
        from rfl] at hc
      rcases List.mem_append.mp hc with h1 | h2
      · exact Or.inl ⟨w, by simp, h1⟩
      · rcases List.mem_cons.mp h2 with h3 | h4
        · exact Or.inr h3
        · rcases ih c h4 with ⟨w', hw', hcw'⟩ | h5
          · exact Or.inl ⟨w', by simp [hw'], hcw'⟩
          · exact Or.inr h5

theorem map_toLower_fixed : ∀ (l : List Char), (∀ c ∈ l, c.toLower = c) →
    l.map Char.toLower = l := by
  intro l
  induction l with
  | nil => intro _; rfl
  | cons c cs ih =>
    intro h
    simp only [List.map_cons]
    rw [h c (by simp), ih (fun x hx => h x (by simp [hx]))]

theorem mem_pyStrip {c : Char} {l : List Char} (h : c ∈ pyStrip l) : c ∈ l := by
  unfold pyStrip at h
  rw [List.mem_reverse] at h
  have h2 := List.dropWhile_subset (l := (l.dropWhile Char.isWhitespace).reverse)
    Char.isWhitespace h
  rw [List.mem_reverse] at h2
  exact List.dropWhile_subset Char.isWhitespace h2

theorem norm_norm (x : Option String) : norm (some (norm x)) = norm x := by
  unfold norm
  set B := (pyStrip (x.getD "").data).map Char.toLower with hB
  set L := joinWords (pyWords B) with hL
  show String.mk (joinWords (pyWords ((pyStrip
    ((Option.getD (some (String.mk L)) "").data)).map Char.toLower))) = String.mk L
  have hdata : (Option.getD (some (String.mk L)) "").data = L := rfl
  rw [hdata]
  have hfix : ∀ c ∈ L, c.toLower = c := by
    intro c hc
    rcases mem_joinWords (pyWords B) c (hL ▸ hc) with ⟨w, hw, hcw⟩ | hsp
    · have hcB : c ∈ B := pyWords_subset B w hw c hcw
      rw [hB] at hcB
      rcases List.mem_map.mp hcB with ⟨d, _, rfl⟩
      exact toLower_toLower d
    · subst hsp
      decide
  have hmap : (pyStrip L).map Char.toLower = pyStrip L :=
    map_toLower_fixed _ (fun c hc => hfix c (mem_pyStrip hc))
  rw [hmap, pyWords_pyStrip, hL, pyWords_joinWords (pyWords B) (pyWords_sound B)]

/-- C9: the normalizer is idempotent and total: for every text `x`,
`norm (norm x) = norm x`, and an absent (`None`) argument normalizes to the
empty string. -/
theorem C9_norm_idempotent (x : Option String) :
    norm (some (norm x)) = norm x ∧ norm none = "" :=
  ⟨norm_norm x, rfl⟩

/-! ## The two copies of the hybrid repeat filter compute the same function -/

theorem hybridLoop_eq_menuService (cname : String) :
    ∀ (items : List MenuItem) (seen : List String),
    hybridLoop repeatsTables cname items seen =
      menuService_hybridLoop cname items seen := by
  intro items
  induction items with
  | nil => intro seen; rfl
  | cons item rest ih =>
    intro seen
    simp only [hybridLoop, menuService_hybridLoop, ih]
    rfl

/-- C10: the copy of `_handle_type2_hybrid` in `extraction.py` (with its
tables drawn from `repeated_values`, modelled as the `helpers/repeats.py`
tables) and the copy in `menu_service.py` return equal results on every
input category. -/
theorem C10_hybrid_copies_agree (cat : Category) :
    handle_type2_hybrid repeatsTables cat = menuService_handle_type2_hybrid cat := by
  simp only [handle_type2_hybrid, menuService_handle_type2_hybrid,
    hybridLoop_eq_menuService]

/-! ## Characterization of the hybrid repeat filter -/

/-- The repeat table that `_handle_type2_hybrid` consults for a given
normalized station name: the four sequential guarded tests of the loop,
read as a table lookup. -/
def repeatTableFor (T : RepeatTables) (cname : String) : List String :=
  if cname = "rise and dine" then T.RISE_AND_DINE
  else if cname = "the stacks" then T.STACKS
  else if cname = "leaf market" then T.LEAF_MARKET
  else if cname = "grill house" then T.GRILL_HOUSE
  else []

/-- Surviving items as the spec words it: walking the item list in order,
drop an item whose normalized name was already seen (on any earlier item)
or is in the station's repeat table; keep the rest in order. -/
def survivors (table : List String) : List MenuItem → List String → List MenuItem
  | [], _ => []
  | item :: rest, seen =>
    let n := norm item.name
    if n ∈ seen then survivors table rest seen
    else if n ∈ table then survivors table rest (n :: seen)
    else item :: survivors table rest (n :: seen)

/-- Position `i` of the normalized-name list `ns` is dropped: it duplicates
an earlier position's normalized name, or lies in the repeat table. -/
def droppedAt (table : List String) (ns : List String) (i : Nat) : Prop :=
  ns.getD i "" ∈ ns.take i ∨ ns.getD i "" ∈ table

theorem hybridLoop_eq_survivors (T : RepeatTables) (cname : String) :
    ∀ (items : List MenuItem) (seen : List String),
    hybridLoop T cname items seen =
      survivors (repeatTableFor T cname) items seen := by
  intro items
  induction items with
  | nil => intro seen; rfl
  | cons item rest ih =>
    intro seen
    simp only [hybridLoop, survivors]
    by_cases hseen : norm item.name ∈ seen
    · simp [hseen, ih]
    · simp only [if_neg hseen]
      by_cases h1 : cname = "rise and dine"
      · subst h1; simp [repeatTableFor, ih]
      · by_cases h2 : cname = "the stacks"
        · subst h2; simp [repeatTableFor, ih]
        · by_cases h3 : cname = "leaf market"
          · subst h3; simp [repeatTableFor, h1, ih]
          · by_cases h4 : cname = "grill house"
            · subst h4; simp [repeatTableFor, h1, h2, ih]
            · simp [repeatTableFor, h1, h2, h3, h4, ih]

theorem survivors_eq_nil_iff (table : List String) :
    ∀ (items : List MenuItem) (seen : List String),
    survivors table items seen = [] ↔
      ∀ i, i < items.length →
        ((items.map fun it => norm it.name).getD i "" ∈ seen ∨
         (items.map fun it => norm it.name).getD i "" ∈
           (items.map fun it => norm it.name).take i ∨
         (items.map fun it => norm it.name).getD i "" ∈ table) := by
  intro items
  induction items with
  | nil =>
    intro seen
    simp [survivors]
  | cons item rest ih =>
    intro seen
    simp only [survivors, List.map_cons, List.length_cons]
    by_cases hseen : norm item.name ∈ seen
    · rw [if_pos hseen, ih seen]
      constructor
      · intro h i hi
        cases i with
        | zero => simp [hseen]
        | succ j =>
          have hj : j < rest.length := by omega
          have hres := h j hj
          simp only [List.getD_cons_succ, List.take_succ_cons, List.mem_cons]
          rcases hres with ha | hb | hc
          · exact Or.inl ha
          · exact Or.inr (Or.inl (Or.inr hb))
          · exact Or.inr (Or.inr hc)
      · intro h j hj
        have hres := h (j + 1) (by omega)
        simp only [List.getD_cons_succ, List.take_succ_cons, List.mem_cons] at hres
        rcases hres with ha | hb | hc
        · exact Or.inl ha
        · rcases hb with hb1 | hb2
          · exact Or.inl (hb1 ▸ hseen)
          · exact Or.inr (Or.inl hb2)
        · exact Or.inr (Or.inr hc)
    · by_cases htable : norm item.name ∈ table
      · rw [if_neg hseen, if_pos htable, ih (norm item.name :: seen)]
        constructor
        · intro h i hi
          cases i with
          | zero => simp [htable]
          | succ j =>
            have hj : j < rest.length := by omega
            have hres := h j hj
            simp only [List.mem_cons] at hres
            simp only [List.getD_cons_succ, List.take_succ_cons, List.mem_cons]
            rcases hres with (ha1 | ha2) | hb | hc
            · exact Or.inr (Or.inl (Or.inl ha1))
            · exact Or.inl ha2
            · exact Or.inr (Or.inl (Or.inr hb))
            · exact Or.inr (Or.inr hc)
        · intro h j hj
          have hres := h (j + 1) (by omega)
          simp only [List.getD_cons_succ, List.take_succ_cons, List.mem_cons] at hres
          simp only [List.mem_cons]
          rcases hres with ha | (hb1 | hb2) | hc
          · exact Or.inl (Or.inr ha)
          · exact Or.inl (Or.inl hb1)
          · exact Or.inr (Or.inl hb2)
          · exact Or.inr (Or.inr hc)
      · rw [if_neg hseen, if_neg htable]
        constructor
        · intro h
          exact absurd h (by simp)
        · intro h
          exfalso
          have hres := h 0 (by omega)
          simp at hres
          tauto

theorem survivors_sublist (table : List String) :
    ∀ (items : List MenuItem) (seen : List String),
    (survivors table items seen).Sublist items := by
  intro items
  induction items with
  | nil => intro seen; simp [survivors]
  | cons item rest ih =>
    intro seen
    simp only [survivors]
    by_cases h1 : norm item.name ∈ seen
    · rw [if_pos h1]
      exact (ih seen).cons item
    · rw [if_neg h1]
      by_cases h2 : norm item.name ∈ table
      · rw [if_pos h2]
        exact (ih _).cons item
      · rw [if_neg h2]
        exact (ih _).cons₂ item

theorem handle_type2_hybrid_eq (T : RepeatTables) (cat : Category) :
    handle_type2_hybrid T cat =
      if survivors (repeatTableFor T (norm cat.name)) cat.items [] = [] then none
      else some ⟨cat.id, cat.name,
        survivors (repeatTableFor T (norm cat.name)) cat.items []⟩ := by
  simp only [handle_type2_hybrid, hybridLoop_eq_survivors]

/-- C3: for a Hybrid category, the repeat filter returns `None` exactly when
every position of the item list is dropped (a duplicate of an earlier
normalized name, or a member of the station's repeat table); otherwise it
returns the same `id`/`name` with exactly the surviving items, a sublist of
the input (order preserved, nothing introduced, count not increased). -/
theorem C3_repeatfilter_characterization (T : RepeatTables) (cat : Category)
    (hh : norm cat.name ∈ TYPE2) :
    (handle_type2_hybrid T cat = none ↔
      ∀ i, i < cat.items.length →
        droppedAt (repeatTableFor T (norm cat.name))
          (cat.items.map fun it => norm it.name) i) ∧
    (∀ out, handle_type2_hybrid T cat = some out →
      out.id = cat.id ∧ out.name = cat.name ∧
      out.items = survivors (repeatTableFor T (norm cat.name)) cat.items [] ∧
      out.items.Sublist cat.items ∧ out.items.length ≤ cat.items.length) := by
  have hmain := handle_type2_hybrid_eq T cat
  constructor
  · rw [hmain]
    by_cases h : survivors (repeatTableFor T (norm cat.name)) cat.items [] = []
    · rw [if_pos h]
      have hd := (survivors_eq_nil_iff _ cat.items []).mp h
      constructor
      · intro _ i hi
        have := hd i hi
        simp only [List.not_mem_nil, false_or] at this
        exact this
      · intro _
        rfl
    · rw [if_neg h]
      constructor
      · intro hx
        exact absurd hx (by simp)
      · intro hall
        exfalso
        apply h
        rw [survivors_eq_nil_iff]
        intro i hi
        have := hall i hi
        unfold droppedAt at this
        tauto
  · intro out hout
    rw [hmain] at hout
    by_cases h : survivors (repeatTableFor T (norm cat.name)) cat.items [] = []
    · rw [if_pos h] at hout
      cases hout
    · rw [if_neg h] at hout
      injection hout with hout
      subst hout
      refine ⟨rfl, rfl, rfl, survivors_sublist _ cat.items [], ?_⟩
      exact (survivors_sublist _ cat.items []).length_le

/-! ## Characterization of the orchestrator -/

theorem morphPath_some {S : Signatures} {cat b : Category}
    (h : morphPath S cat = some b) : b = morphBullet S cat := by
  unfold morphPath at h
  rcases hi : cat.items with _ | ⟨it, its⟩
  · rw [hi] at h
    cases h
  · rw [hi] at h
    exact (Option.some.inj h).symm

theorem morphPath_of_ne_nil {S : Signatures} {cat : Category}
    (h : cat.items ≠ []) : morphPath S cat = some (morphBullet S cat) := by
  unfold morphPath
  rcases hi : cat.items with _ | ⟨it, its⟩
  · exact absurd hi h
  · rfl

/-- The contribution of a non-morph category to `type1_and_type2` in
`extract_specials`: hybrid categories go through the repeat filter (and may
vanish), all others pass through unchanged. -/
def uniqueHybridResult (T : RepeatTables) (cat : Category) : Option Category :=
  if norm cat.name ∈ TYPE2 then handle_type2_hybrid T cat
  else some (handle_type1_unique cat)

theorem processCategories_some (S : Signatures) (T : RepeatTables) :
    ∀ (cats : List Category) (t12 t3 : List Category),
    processCategories S T cats = some (t12, t3) →
    t12 = ((cats.filter fun c => !decide (norm c.name ∈ TYPE3)).filterMap
      (uniqueHybridResult T)) ∧
    t3 = ((cats.filter fun c => decide (norm c.name ∈ TYPE3)).map
      (morphBullet S)) := by
  intro cats
  induction cats with
  | nil =>
    intro t12 t3 h
    simp only [processCategories, Option.some.injEq, Prod.mk.injEq] at h
    simp [← h.1, ← h.2]
  | cons cat rest ih =>
    intro t12 t3 h
    simp only [processCategories] at h
    by_cases hm : norm cat.name ∈ TYPE3
    · rw [if_pos hm] at h
      rcases hmp : morphPath S cat with _ | b
      · rw [hmp] at h
        cases h
      · rw [hmp] at h
        rcases Option.map_eq_some'.mp h with ⟨⟨p1, p2⟩, hp, heq⟩
        have hb := morphPath_some hmp
        obtain ⟨rfl, rfl⟩ : p1 = t12 ∧ b :: p2 = t3 := by
          simpa using heq
        have hih := ih p1 p2 hp
        subst hb
        constructor
        · rw [List.filter_cons_of_neg (by simp [hm])]
          exact hih.1
        · rw [List.filter_cons_of_pos (by simp [hm]), List.map_cons]
          rw [← hih.2]
    · rw [if_neg hm] at h
      by_cases hh : norm cat.name ∈ TYPE2
      · rw [if_pos hh] at h
        rcases hhy : handle_type2_hybrid T cat with _ | nc
        · rw [hhy] at h
          have hih := ih t12 t3 h
          constructor
          · rw [List.filter_cons_of_pos (by simp [hm]), List.filterMap_cons]
            rw [show uniqueHybridResult T cat = none from by
              simp [uniqueHybridResult, hh, hhy]]
            exact hih.1
          · rw [List.filter_cons_of_neg (by simp [hm])]
            exact hih.2
        · rw [hhy] at h
          rcases Option.map_eq_some'.mp h with ⟨⟨p1, p2⟩, hp, heq⟩
          obtain ⟨rfl, rfl⟩ : nc :: p1 = t12 ∧ p2 = t3 := by
            simpa using heq
          have hih := ih p1 p2 hp
          constructor
          · rw [List.filter_cons_of_pos (by simp [hm]), List.filterMap_cons]
            rw [show uniqueHybridResult T cat = some nc from by
              simp [uniqueHybridResult, hh, hhy]]
            rw [← hih.1]
          · rw [List.filter_cons_of_neg (by simp [hm])]
            exact hih.2
      · rw [if_neg hh] at h
        rcases Option.map_eq_some'.mp h with ⟨⟨p1, p2⟩, hp, heq⟩
        obtain ⟨rfl, rfl⟩ : handle_type1_unique cat :: p1 = t12 ∧ p2 = t3 := by
          simpa using heq
        have hih := ih p1 p2 hp
        constructor
        · rw [List.filter_cons_of_pos (by simp [hm]), List.filterMap_cons]
          rw [show uniqueHybridResult T cat = some (handle_type1_unique cat) from by
            simp [uniqueHybridResult, hh]]
          rw [← hih.1]
        · rw [List.filter_cons_of_neg (by simp [hm])]
          exact hih.2

/-- C4: for a period whose meal key lowercases to "breakfast", the emitted
category list is exactly the rebuilt list filtered down to categories whose
normalized name is "rise and dine"; everything else — in particular every
morph result, whose name normalizes into `TYPE3` — is discarded. -/
theorem C4_breakfast_filter (S : Signatures) (T : RepeatTables)
    (key : String) (period : Period) (t12 t3 : List Category)
    (hkey : pyLower key = "breakfast")
    (hproc : processCategories S T period.categories = some (t12, t3)) :
    processPeriod S T key period =
      some ⟨period.id, period.name, period.sort_order,
        (t12 ++ t3).filter fun c => norm c.name == "rise and dine"⟩ ∧
    (∀ c ∈ (t12 ++ t3).filter fun c => norm c.name == "rise and dine",
      norm c.name = "rise and dine") ∧
    (∀ c ∈ t3, c ∉ (t12 ++ t3).filter fun c => norm c.name == "rise and dine") := by
  refine ⟨?_, ?_, ?_⟩
  · unfold processPeriod
    rw [hproc]
    show some (Period.mk period.id period.name period.sort_order
      (if pyLower key = "breakfast" then
        (t12 ++ t3).filter fun c => norm c.name == "rise and dine"
      else t12 ++ t3)) = _
    rw [if_pos hkey]
  · intro c hc
    have := (List.mem_filter.mp hc).2
    simpa using this
  · intro c hc hcontra
    have hname := (List.mem_filter.mp hcontra).2
    simp only [beq_iff_eq] at hname
    have ht3 := (processCategories_some S T period.categories t12 t3 hproc).2
    have : norm c.name ∈ TYPE3 := by
      rw [ht3] at hc
      rcases List.mem_map.mp hc with ⟨c0, hc0, rfl⟩
      have : norm (morphBullet S c0).name ∈ TYPE3 := by
        have hmem := (List.mem_filter.mp hc0).2
        simpa [morphBullet] using hmem
      exact this
    rw [hname] at this
    simp [TYPE3] at this

/-- C5: for a non-breakfast period, the emitted category list is the
`type1_and_type2` results followed by the morph results: the Unique and
surviving Hybrid results of the non-morph categories in original relative
order, then the morph bullets of the morph categories in original relative
order. -/
theorem C5_morph_last (S : Signatures) (T : RepeatTables)
    (key : String) (period : Period) (t12 t3 : List Category)
    (hkey : ¬ pyLower key = "breakfast")
    (hproc : processCategories S T period.categories = some (t12, t3)) :
    processPeriod S T key period =
      some ⟨period.id, period.name, period.sort_order, t12 ++ t3⟩ ∧
    t12 = ((period.categories.filter fun c => !decide (norm c.name ∈ TYPE3)).filterMap
      (uniqueHybridResult T)) ∧
    t3 = ((period.categories.filter fun c => decide (norm c.name ∈ TYPE3)).map
      (morphBullet S)) := by
  have hps := processCategories_some S T period.categories t12 t3 hproc
  refine ⟨?_, hps.1, hps.2⟩
  unfold processPeriod
  rw [hproc]
  show some (Period.mk period.id period.name period.sort_order
    (if pyLower key = "breakfast" then
      (t12 ++ t3).filter fun c => norm c.name == "rise and dine"
    else t12 ++ t3)) = _
  rw [if_neg hkey]

/-! ## Signature tiers of the morph classifier -/

/-- A signature tier, priority given by list position; `testsAll` records
whether the tier is tested against all normalized item names or only the
first three. -/
structure SignatureTier where
  sigs : List String
  label : String
  testsAll : Bool
deriving DecidableEq, Repr

/-- A tier applies when any of its signatures is an exact member of the
tested slice of the normalized names. -/
def tierApplies (t : SignatureTier) (names : List String) : Bool :=
  t.sigs.any fun sig => decide (sig ∈ (if t.testsAll then names else names.take 3))

/-- The ordered tier list of `_handle_type3_morph` in `extraction.py`:
teppanyaki, shawarma, french toast, pancakes (Hot Plate tier group), rice
bowl, mezze (Fresh Bowl group), ramen, curry, pasta (Create group). -/
def signatureTiers (S : Signatures) : List SignatureTier :=
  [⟨S.TEPPAN_SIGNATURE, "Teppenyaki Station", false⟩,
   ⟨S.SHAWARMA_SIGNATURE, "Shawarma Station", false⟩,
   ⟨S.FRENCH_TOAST_SIGNATURE, "French Toast Bar", false⟩,
   ⟨S.PANCAKE_SIGNATURE, "Pancakes Bar", false⟩,
   ⟨S.RICE_BOWL_SIGNATURE, "Rice Bowl Bar", false⟩,
   ⟨S.MEZZE_BAR_SIGNATURE, "Mezze Bar", false⟩,
   ⟨S.RAMEN_BAR_SIGNATURE, "Ramen Station", false⟩,
   ⟨S.CURRY_BAR_SIGNATURE, "Curry Station", false⟩,
   ⟨S.PASTA_BAR_SIGNATURE, "Pasta Station", true⟩]

/-- First-match evaluation of a prioritized tier list: the first applying
tier's label wins and evaluation stops; with no applying tier, the
fallback. -/
def firstTierLabel (ts : List SignatureTier) (names : List String)
    (fallback : Option String) : Option String :=
  match ts with
  | [] => fallback
  | t :: rest =>
    if tierApplies t names then some t.label
    else firstTierLabel rest names fallback

/-- First-match evaluation over the prioritized tier list of
`extraction.py`, with fallback when no tier applies. -/
def detectedLabel (S : Signatures) (names : List String)
    (fallback : Option String) : Option String :=
  firstTierLabel (signatureTiers S) names fallback

theorem detectedLabel_unfold (S : Signatures) (ns : List String)
    (fb : Option String) :
    detectedLabel S ns fb =
      if S.TEPPAN_SIGNATURE.any (fun sig => decide (sig ∈ ns.take 3)) then
        some "Teppenyaki Station"
      else if S.SHAWARMA_SIGNATURE.any (fun sig => decide (sig ∈ ns.take 3)) then
        some "Shawarma Station"
      else if S.FRENCH_TOAST_SIGNATURE.any (fun sig => decide (sig ∈ ns.take 3)) then
        some "French Toast Bar"
      else if S.PANCAKE_SIGNATURE.any (fun sig => decide (sig ∈ ns.take 3)) then
        some "Pancakes Bar"
      else if S.RICE_BOWL_SIGNATURE.any (fun sig => decide (sig ∈ ns.take 3)) then
        some "Rice Bowl Bar"
      else if S.MEZZE_BAR_SIGNATURE.any (fun sig => decide (sig ∈ ns.take 3)) then
        some "Mezze Bar"
      else if S.RAMEN_BAR_SIGNATURE.any (fun sig => decide (sig ∈ ns.take 3)) then
        some "Ramen Station"
      else if S.CURRY_BAR_SIGNATURE.any (fun sig => decide (sig ∈ ns.take 3)) then
        some "Curry Station"
      else if S.PASTA_BAR_SIGNATURE.any (fun sig => decide (sig ∈ ns)) then
        some "Pasta Station"
      else fb := rfl

/-- C6: the morph classifier's label is the first-match evaluation of the
ordered signature tier list (so an earlier tier's label wins whenever two
tiers both apply), and in that tier list every pair tests only the first
three normalized names except the lowest-priority (pasta) pair, which
tests all names. -/
theorem C6_tier_priority (S : Signatures) (cat : Category) :
    (handle_type3_morph S cat).name =
      detectedLabel S (cat.items.map fun i => norm i.name) cat.name ∧
    (signatureTiers S).map SignatureTier.testsAll =
      [false, false, false, false, false, false, false, false, true] := by
  constructor
  · rw [detectedLabel_unfold]
    rfl
  · rfl

/-- Union of all configured signature sets of `extraction.py`. -/
def allSignatures (S : Signatures) : List String :=
  S.TEPPAN_SIGNATURE ++ S.SHAWARMA_SIGNATURE ++ S.FRENCH_TOAST_SIGNATURE ++
  S.PANCAKE_SIGNATURE ++ S.RICE_BOWL_SIGNATURE ++ S.MEZZE_BAR_SIGNATURE ++
  S.RAMEN_BAR_SIGNATURE ++ S.CURRY_BAR_SIGNATURE ++ S.PASTA_BAR_SIGNATURE

/-- C7: when no normalized item name of a morph category matches any
configured signature set, the detected label is the station's original,
unmodified display name (and the classifier is total, so no error can
arise). -/
theorem C7_fallback_to_station_name (S : Signatures) (cat : Category)
    (h : ∀ n ∈ cat.items.map (fun i => norm i.name), n ∉ allSignatures S) :
    (handle_type3_morph S cat).name = cat.name := by
  have hfalse : ∀ (sigs : List String), (∀ s ∈ sigs, s ∈ allSignatures S) →
      ∀ (sl : List String), sl ⊆ (cat.items.map fun i => norm i.name) →
      (sigs.any fun sig => decide (sig ∈ sl)) = false := by
    intro sigs hsub sl hsl
    rw [List.any_eq_false]
    intro sig hsig
    simp only [decide_eq_true_eq]
    intro hmem
    exact h sig (hsl hmem) (hsub sig hsig)
  have hsub3 : ((cat.items.map fun i => norm i.name).take 3) ⊆
      (cat.items.map fun i => norm i.name) := List.take_subset _ _
  have h1 := hfalse S.TEPPAN_SIGNATURE
    (fun s hs => by simp [allSignatures, hs]) _ hsub3
  have h2 := hfalse S.SHAWARMA_SIGNATURE
    (fun s hs => by simp [allSignatures, hs]) _ hsub3
  have h3 := hfalse S.FRENCH_TOAST_SIGNATURE
    (fun s hs => by simp [allSignatures, hs]) _ hsub3
  have h4 := hfalse S.PANCAKE_SIGNATURE
    (fun s hs => by simp [allSignatures, hs]) _ hsub3
  have h5 := hfalse S.RICE_BOWL_SIGNATURE
    (fun s hs => by simp [allSignatures, hs]) _ hsub3
  have h6 := hfalse S.MEZZE_BAR_SIGNATURE
    (fun s hs => by simp [allSignatures, hs]) _ hsub3
  have h7 := hfalse S.RAMEN_BAR_SIGNATURE
    (fun s hs => by simp [allSignatures, hs]) _ hsub3
  have h8 := hfalse S.CURRY_BAR_SIGNATURE
    (fun s hs => by simp [allSignatures, hs]) _ hsub3
  have h9 := hfalse S.PASTA_BAR_SIGNATURE
    (fun s hs => by simp [allSignatures, hs]) _ (List.Subset.refl _)
  simp only [handle_type3_morph, h1, h2, h3, h4, h5, h6, h7, h8, h9]
  rfl

/-! ## The morph path of the orchestrator (C1, C2) -/

/-- C1 (amended): for a Morph category with at least one item, the morph
path of `extract_specials` produces a category with the same `id` and
`name` and exactly one synthetic item, the detected label with no
description.  (With an empty item list it produces nothing: see the
counterexample.) -/
theorem C1_morph_single_bullet (S : Signatures) (cat : Category)
    (hmorph : norm cat.name ∈ TYPE3) (hne : cat.items ≠ []) :
    morphPath S cat = some (morphBullet S cat) ∧
    (morphBullet S cat).id = cat.id ∧
    (morphBullet S cat).name = cat.name ∧
    (morphBullet S cat).items = [⟨(handle_type3_morph S cat).name, none⟩] ∧
    (morphBullet S cat).items.length = 1 :=
  ⟨morphPath_of_ne_nil hne, rfl, rfl, rfl, rfl⟩

/-- C1 counterexample: a Morph category ("Create") with an empty item list.
The morph-handling path of the extraction produces no category at all —
the source evaluates `cat.items[0].__class__` and raises `IndexError` — so
the claim fails as stated for this Morph category. -/
theorem C1_counterexample :
    norm (Category.mk none (some "Create") []).name ∈ TYPE3 ∧
    morphPath repeatsSignatures (Category.mk none (some "Create") []) = none := by
  exact ⟨by decide, rfl⟩

/-- C2 (refuting evaluation): a snapshot containing a Morph category
("Create") with an empty item list makes `extract_specials` raise
`IndexError` at `cat.items[0].__class__` (modelled as `none`), so the
pipeline is not total on well-formed snapshots with empty item lists. -/
theorem C2_crash_on_empty_morph_items :
    extract_specials repeatsSignatures repeatsTables
      [("lunch", some ⟨none, some "Lunch", 1, [⟨none, some "Create", []⟩]⟩)] =
      none := by
  decide

/-! ## Frame conditions of the orchestrator (C8) -/

theorem processPeriod_fields {S : Signatures} {T : RepeatTables}
    {key : String} {period p : Period}
    (h : processPeriod S T key period = some p) :
    p.id = period.id ∧ p.name = period.name ∧
      p.sort_order = period.sort_order := by
  unfold processPeriod at h
  rcases hpc : processCategories S T period.categories with _ | ⟨t12, t3⟩
  · rw [hpc] at h
    cases h
  · rw [hpc] at h
    have h2 : some (Period.mk period.id period.name period.sort_order
      (if pyLower key = "breakfast" then
        (t12 ++ t3).filter fun c => norm c.name == "rise and dine"
      else t12 ++ t3)) = some p := h
    injection h2 with h3
    subst h3
    exact ⟨rfl, rfl, rfl⟩

/-- C8 (amended): whenever extraction completes, each emitted period keeps
the `id`, `name` and `sort_order` of the input period carrying its key, the
output key list equals the input key list restricted to entries whose
period is present, and keys absent from the input are absent from the
output.  (The key set is not preserved verbatim: a key mapped to an absent
period is dropped — see the counterexample.) -/
theorem C8_frame (S : Signatures) (T : RepeatTables) :
    ∀ (periods : List (String × Option Period)) (out : List (String × Period)),
    extract_specials S T periods = some out →
    out.map Prod.fst = (periods.filter fun e => e.2.isSome).map Prod.fst ∧
    (∀ e ∈ out, ∃ p, (e.1, some p) ∈ periods ∧
      e.2.id = p.id ∧ e.2.name = p.name ∧ e.2.sort_order = p.sort_order) ∧
    (∀ k ∈ out.map Prod.fst, k ∈ periods.map Prod.fst) := by
  intro periods
  induction periods with
  | nil =>
    intro out h
    have h2 : some ([] : List (String × Period)) = some out := h
    injection h2 with h3
    subst h3
    simp
  | cons e rest ih =>
    intro out h
    rcases e with ⟨key, po⟩
    rcases po with _ | period
    · have h2 : extract_specials S T rest = some out := h
      have hih := ih out h2
      refine ⟨?_, ?_, ?_⟩
      · rw [hih.1, List.filter_cons_of_neg (by simp)]
      · intro x hx
        rcases hih.2.1 x hx with ⟨p, hp, f1, f2, f3⟩
        exact ⟨p, by simp [hp], f1, f2, f3⟩
      · intro k hk
        have := hih.2.2 k hk
        simp [this]
    · simp only [extract_specials] at h
      rcases hpp : processPeriod S T key period with _ | p
      · rw [hpp] at h
        cases h
      · rw [hpp] at h
        rcases Option.map_eq_some'.mp h with ⟨out', hout', rfl⟩
        have hih := ih out' hout'
        have hf := processPeriod_fields hpp
        refine ⟨?_, ?_, ?_⟩
        · simp only [List.map_cons]
          rw [List.filter_cons_of_pos (by simp), List.map_cons, hih.1]
        · intro x hx
          rcases List.mem_cons.mp hx with rfl | hx'
          · exact ⟨period, by simp, hf.1, hf.2.1, hf.2.2⟩
          · rcases hih.2.1 x hx' with ⟨q, hq, f1, f2, f3⟩
            exact ⟨q, by simp [hq], f1, f2, f3⟩
        · intro k hk
          simp only [List.map_cons, List.mem_cons] at hk ⊢
          rcases hk with rfl | hk'
          · exact Or.inl rfl
          · exact Or.inr (hih.2.2 k hk')

/-- C8 counterexample: a snapshot whose single key "breakfast" carries an
absent (falsy) period.  Extraction succeeds with an empty output, so the
output has no keys while the input key list is exactly "breakfast": the
output snapshot does not have the same key set as the input. -/
theorem C8_counterexample :
    extract_specials repeatsSignatures repeatsTables
      [("breakfast", (none : Option Period))] = some [] ∧
    ("breakfast", (none : Option Period)) ∈
      [("breakfast", (none : Option Period))] ∧
    ¬ ∃ out, extract_specials repeatsSignatures repeatsTables
        [("breakfast", (none : Option Period))] = some out ∧
      out.map Prod.fst =
        [("breakfast", (none : Option Period))].map Prod.fst := by
  refine ⟨rfl, by simp, ?_⟩
  rintro ⟨out, h1, h2⟩
  have h0 : some ([] : List (String × Period)) = some out := h1
  obtain rfl : out = [] := (Option.some.inj h0).symm
  simp at h2

/-! ## Concrete witnesses -/

instance (table ns : List String) (i : Nat) : Decidable (droppedAt table ns i) :=
  inferInstanceAs (Decidable (ns.getD i "" ∈ ns.take i ∨ ns.getD i "" ∈ table))

theorem C1_morph_single_bullet_witness :
    morphPath repeatsSignatures
        ⟨none, some "Create", [⟨some "Ramen Noodles", none⟩]⟩ =
      some (morphBullet repeatsSignatures
        ⟨none, some "Create", [⟨some "Ramen Noodles", none⟩]⟩) ∧
    (morphBullet repeatsSignatures
        ⟨none, some "Create", [⟨some "Ramen Noodles", none⟩]⟩).id = none ∧
    (morphBullet repeatsSignatures
        ⟨none, some "Create", [⟨some "Ramen Noodles", none⟩]⟩).name = some "Create" ∧
    (morphBullet repeatsSignatures
        ⟨none, some "Create", [⟨some "Ramen Noodles", none⟩]⟩).items =
      [⟨(handle_type3_morph repeatsSignatures
        ⟨none, some "Create", [⟨some "Ramen Noodles", none⟩]⟩).name, none⟩] ∧
    (morphBullet repeatsSignatures
        ⟨none, some "Create", [⟨some "Ramen Noodles", none⟩]⟩).items.length = 1 :=
  C1_morph_single_bullet repeatsSignatures _ (by decide) (by decide)

theorem C3_repeatfilter_characterization_witness :
    handle_type2_hybrid repeatsTables
      ⟨none, some "The Stacks",
        [⟨some "Mustard", none⟩, ⟨some " mustard ", none⟩]⟩ = none :=
  (C3_repeatfilter_characterization repeatsTables
    ⟨none, some "The Stacks",
      [⟨some "Mustard", none⟩, ⟨some " mustard ", none⟩]⟩
    (by decide)).1.mpr (by decide)

theorem C4_breakfast_filter_witness :
    processPeriod repeatsSignatures repeatsTables "Breakfast"
      ⟨none, some "Breakfast", 0,
        [⟨none, some "Rise and Dine", [⟨some "Waffles", none⟩]⟩,
         ⟨none, some "Pizza Oven", [⟨some "Margherita", none⟩]⟩]⟩ =
      some ⟨none, some "Breakfast", 0,
        [⟨none, some "Rise and Dine", [⟨some "Waffles", none⟩]⟩]⟩ := by
  have h := C4_breakfast_filter repeatsSignatures repeatsTables "Breakfast"
    ⟨none, some "Breakfast", 0,
      [⟨none, some "Rise and Dine", [⟨some "Waffles", none⟩]⟩,
       ⟨none, some "Pizza Oven", [⟨some "Margherita", none⟩]⟩]⟩
    [⟨none, some "Rise and Dine", [⟨some "Waffles", none⟩]⟩,
     ⟨none, some "Pizza Oven", [⟨some "Margherita", none⟩]⟩]
    []
    (by decide) (by decide)
  rw [h.1]
  decide

theorem C5_morph_last_witness :
    processPeriod repeatsSignatures repeatsTables "lunch"
      ⟨none, some "Lunch", 1,
        [⟨some "m1", some "Create", [⟨some "Ramen Noodles", none⟩]⟩,
         ⟨none, some "Pizza Oven", [⟨some "Margherita", none⟩]⟩]⟩ =
      some ⟨none, some "Lunch", 1,
        [⟨none, some "Pizza Oven", [⟨some "Margherita", none⟩]⟩,
         ⟨some "m1", some "Create", [⟨some "Ramen Station", none⟩]⟩]⟩ := by
  have h := C5_morph_last repeatsSignatures repeatsTables "lunch"
    ⟨none, some "Lunch", 1,
      [⟨some "m1", some "Create", [⟨some "Ramen Noodles", none⟩]⟩,
       ⟨none, some "Pizza Oven", [⟨some "Margherita", none⟩]⟩]⟩
    [⟨none, some "Pizza Oven", [⟨some "Margherita", none⟩]⟩]
    [⟨some "m1", some "Create", [⟨some "Ramen Station", none⟩]⟩]
    (by decide) (by decide)
  rw [h.1]
  decide

theorem C7_fallback_to_station_name_witness :
    (handle_type3_morph repeatsSignatures
      ⟨none, some "Create", [⟨some "Mystery Stew", none⟩]⟩).name =
      some "Create" :=
  C7_fallback_to_station_name repeatsSignatures
    ⟨none, some "Create", [⟨some "Mystery Stew", none⟩]⟩ (by decide)

theorem C8_frame_witness :
    [("dinner", (⟨none, some "Dinner", 2,
        [⟨none, some "Pizza Oven", [⟨some "Margherita", none⟩]⟩]⟩ : Period))].map
      Prod.fst =
    ([("dinner", some (⟨none, some "Dinner", 2,
        [⟨none, some "Pizza Oven", [⟨some "Margherita", none⟩]⟩]⟩ : Period)),
      ("extra", (none : Option Period))].filter fun e => e.2.isSome).map
      Prod.fst :=
  (C8_frame repeatsSignatures repeatsTables
    [("dinner", some ⟨none, some "Dinner", 2,
        [⟨none, some "Pizza Oven", [⟨some "Margherita", none⟩]⟩]⟩),
     ("extra", (none : Option Period))]
    [("dinner", ⟨none, some "Dinner", 2,
        [⟨none, some "Pizza Oven", [⟨some "Margherita", none⟩]⟩]⟩)]
    (by decide)).1

end DiningBot
